import Mathlib

/-!
Shallow embedding of the portfolio-statistics engine of
`src/services/financeEngine.ts`.

Numbers are modelled as idealized IEEE doubles: exact real arithmetic
(no rounding), with the special values Infinity, -Infinity and NaN made
explicit through the type `JSR` wherever the source can produce them
(division by a zero risk, square root of a negative number, the
sentinel extrema used by the Monte-Carlo loop).  Randomness and the
network fetch collaborator are inputs: a uniform stream `ℕ → ℝ` stands
for Math.random, and a function `String → FetchOutcome` stands for the
per-ticker fetch with its three classified outcomes.
-/

namespace FinanceEngine

noncomputable section

/-- Idealized JavaScript number: an exact real, or one of the IEEE
special values positive infinity, negative infinity, NaN. -/
inductive JSR where
  | num (x : ℝ)
  | posInf
  | negInf
  | nan

/-- The JavaScript strict-less-than on numbers: any comparison with NaN
is false, the infinities compare in the usual way. -/
def jsrLt : JSR → JSR → Prop
  | .nan, _ => False
  | _, .nan => False
  | .num a, .num b => a < b
  | .num _, .posInf => True
  | .num _, .negInf => False
  | .posInf, _ => False
  | .negInf, .negInf => False
  | .negInf, _ => True

/-- The JavaScript less-or-equal on numbers: any comparison with NaN is
false. -/
def jsrLe : JSR → JSR → Prop
  | .nan, _ => False
  | _, .nan => False
  | .num a, .num b => a ≤ b
  | .num _, .posInf => True
  | .num _, .negInf => False
  | .posInf, .posInf => True
  | .posInf, _ => False
  | .negInf, _ => True

/-- JavaScript `x > y`, which is `y < x`. -/
def jsrGt (x y : JSR) : Prop := jsrLt y x

/-- JavaScript `x >= y`, which is `y <= x`. -/
def jsrGe (x y : JSR) : Prop := jsrLe y x

instance (x y : JSR) : Decidable (jsrLt x y) := by
  cases x <;> cases y <;> simp only [jsrLt] <;> infer_instance

instance (x y : JSR) : Decidable (jsrLe x y) := by
  cases x <;> cases y <;> simp only [jsrLe] <;> infer_instance

instance (x y : JSR) : Decidable (jsrGt x y) := by
  unfold jsrGt; infer_instance

instance (x y : JSR) : Decidable (jsrGe x y) := by
  unfold jsrGe; infer_instance

/-- JavaScript division of two finite numbers: a real quotient when the
divisor is nonzero, a signed infinity (or NaN for 0/0) when it is zero. -/
def divJS (a b : ℝ) : JSR :=
  if b = 0 then (if 0 < a then .posInf else if a < 0 then .negInf else .nan)
  else .num (a / b)

/-- JavaScript Math.sqrt: NaN on negative input. -/
def sqrtJS (x : ℝ) : JSR :=
  if x < 0 then .nan else .num (Real.sqrt x)

/-- Division of a finite numerator by a possibly special divisor. -/
def jsrDivReal (a : ℝ) : JSR → JSR
  | .num b => divJS a b
  | .posInf => .num 0
  | .negInf => .num 0
  | .nan => .nan

/-- Multiplication of a possibly special value by a finite constant. -/
def jsrScale (c : ℝ) : JSR → JSR
  | .num x => .num (c * x)
  | .posInf => if 0 < c then .posInf else if c < 0 then .negInf else .nan
  | .negInf => if 0 < c then .negInf else if c < 0 then .posInf else .nan
  | .nan => .nan

/-- Interpretation of the non-NaN JavaScript numbers inside the extended
reals; NaN is sent to an arbitrary junk value. -/
def toER : JSR → EReal
  | .num x => (x : EReal)
  | .posInf => ⊤
  | .negInf => ⊥
  | .nan => ⊥

theorem jsrLt_iff {x y : JSR} (hx : x ≠ JSR.nan) (hy : y ≠ JSR.nan) :
    jsrLt x y ↔ toER x < toER y := by
  cases x <;> cases y <;>
    simp_all [jsrLt, toER, EReal.coe_lt_coe_iff, EReal.bot_lt_coe,
      EReal.coe_lt_top, not_top_lt, not_lt_bot, lt_irrefl, bot_lt_top]

theorem jsrLe_iff {x y : JSR} (hx : x ≠ JSR.nan) (hy : y ≠ JSR.nan) :
    jsrLe x y ↔ toER x ≤ toER y := by
  cases x <;> cases y <;>
    simp_all [jsrLe, toER, EReal.coe_le_coe_iff, bot_le, le_top,
      le_refl, top_le_iff, le_bot_iff]

-- Statistics helpers (source lines 14-25).

/-- Arithmetic mean of a series, `reduce((a,b) => a+b, 0) / length`. -/
def calculateMean (data : List ℝ) : ℝ :=
  data.sum / data.length

/-- Sample covariance with divisor n-1, where n is the length of the
first series (source `calculateCovariance`). -/
def calculateCovariance (dataA dataB : List ℝ) (meanA meanB : ℝ) : ℝ :=
  (∑ i ∈ Finset.range dataA.length,
      (dataA.getD i 0 - meanA) * (dataB.getD i 0 - meanB)) /
    ((dataA.length : ℝ) - 1)

-- Data fetching layer (source lines 27-236).

/-- Requested horizon. -/
inductive TimeRange where
  | y1
  | y2
  | y5

/-- Map ranges to approximate trading days (source RANGE_DAYS_MAP). -/
def rangeDays : TimeRange → ℕ
  | .y1 => 252
  | .y2 => 504
  | .y5 => 1260

/-- Box-Muller transform of two uniform variates (source randn_bm); the
rejection loops that re-draw a zero uniform are abstracted into the
uniform stream itself. -/
def randnPair (u v : ℝ) : ℝ :=
  Real.sqrt (-2 * Real.log u) * Real.cos (2 * Real.pi * v)

/-- Synthetic fallback generator (source generateMockHistory).  The
Math.random stream is the explicit input `u`; draws are consumed in the
source order: one Box-Muller pair per market-trend day, then per ticker
one volatility draw, one alpha draw and one pair per day. -/
def generateMockHistory (tickers : List String) (range : TimeRange) (u : ℕ → ℝ) :
    List (List ℝ) :=
  let days := rangeDays range
  let marketTrend : ℕ → ℝ := fun t => randnPair (u (2 * t)) (u (2 * t + 1)) * 0.01 + 0.0005
  tickers.enum.map (fun kt =>
    let seed := (kt.2.toList.map Char.toNat).sum
    let randomVolBase := ((seed % 20 : ℕ) : ℝ) / 1000
    let base := 2 * days + kt.1 * (2 + 2 * days)
    let volatility := 0.01 + randomVolBase + u base * 0.01
    let beta := 0.5 + ((seed % 10 : ℕ) : ℝ) / 10
    let alpha := (u (base + 1) - 0.5) * 0.001
    (List.range days).map (fun i =>
      alpha + beta * marketTrend i + randnPair (u (base + 2 + 2 * i)) (u (base + 3 + 2 * i)) * volatility))

/-- Classified outcome of one ticker fetch: a price series with dates
and an optional display name, an INVALID_TICKER rejection carrying the
ticker named in the error message, or a transient failure (null result
or network error). -/
inductive FetchOutcome where
  | success (dates : List String) (prices : List ℝ) (displayName : Option String)
  | invalid (ticker : String)
  | failure

/-- Ticker named by an INVALID_TICKER outcome, if any. -/
def invalidName : FetchOutcome → Option String
  | .invalid t => some t
  | _ => none

/-- Whether the outcome triggers the synthetic fallback (null result or
generic error in the source). -/
def isFailure : FetchOutcome → Bool
  | .failure => true
  | _ => false

/-- Date list of a successful fetch. -/
def outcomeDates : FetchOutcome → List String
  | .success d _ _ => d
  | _ => []

/-- Price list of a successful fetch. -/
def outcomePrices : FetchOutcome → List ℝ
  | .success _ p _ => p
  | _ => []

/-- Display name of a successful fetch. -/
def outcomeName : FetchOutcome → Option String
  | .success _ _ nm => nm
  | _ => none

/-- Sorted intersection of the trading dates of all assets, seeded from
the first asset (source lines 184-196); Set insertion-order semantics
are modelled by eraseDups and filter. -/
def commonDatesSorted (dls : List (List String)) : List String :=
  match dls with
  | [] => []
  | d0 :: rest =>
    (rest.foldl (fun acc d => acc.filter (fun x => d.contains x)) d0.eraseDups).mergeSort
      (fun a b => decide (a ≤ b))

/-- Per-asset simple returns over the common calendar (source lines
216-232): walk the sorted common dates, emit (p - prev)/prev whenever
the previous price was positive. -/
def buildReturns (dates : List String) (prices : List ℝ) (common : List String) : List ℝ :=
  (common.foldl (fun s d =>
      let price := (((dates.zip prices).find? (fun pr => pr.1 == d)).map (fun pr => pr.2)).getD 0
      if 0 < s.2 then (s.1 ++ [(price - s.2) / s.2], price) else (s.1, price))
    (([] : List ℝ), (-1 : ℝ))).1

/-- Result of the history provider. -/
structure HistoryData where
  history : List (List ℝ)
  isSimulation : Bool
  names : List (String × String)

/-- The history provider (source getHistory): abort on any invalid
ticker with the de-duplicated offender list, fall back to a fully
synthetic matrix on any transient failure or when fewer than 50 common
dates remain, otherwise align the real series. -/
def getHistory (tickers : List String) (range : TimeRange)
    (fetch : String → FetchOutcome) (u : ℕ → ℝ) : Except (List String) HistoryData :=
  let results := tickers.map fetch
  let badTickers := results.filterMap invalidName
  if badTickers ≠ [] then .error badTickers.eraseDups
  else if results.any isFailure then .ok ⟨generateMockHistory tickers range u, true, []⟩
  else
    let sortedCommonDates := commonDatesSorted (results.map outcomeDates)
    if sortedCommonDates.length < 50 then .ok ⟨generateMockHistory tickers range u, true, []⟩
    else
      .ok ⟨results.map (fun r => buildReturns (outcomeDates r) (outcomePrices r) sortedCommonDates),
        false,
        (tickers.zip results).filterMap (fun tr => (outcomeName tr.2).map (fun nm => (tr.1, nm)))⟩

-- Statistics (source lines 293-320).

/-- Annualized covariance matrix entry (source lines 302-307). -/
def covMatrix (history : List (List ℝ)) (i j : ℕ) : ℝ :=
  calculateCovariance (history.getD i []) (history.getD j [])
    (calculateMean (history.getD i [])) (calculateMean (history.getD j [])) * 252

/-- Correlation matrix entry with the zero-volatility guard (source
lines 309-320).  Math.sqrt appears only on diagonal covariances, which
are nonnegative sums of squares whenever the row has two or more
entries, so Real.sqrt is a faithful model on that domain. -/
def corMatrix (history : List (List ℝ)) (i j : ℕ) : ℝ :=
  let stdDevI := Real.sqrt (covMatrix history i i)
  let stdDevJ := Real.sqrt (covMatrix history j j)
  if stdDevI = 0 ∨ stdDevJ = 0 then 0
  else covMatrix history i j / (stdDevI * stdDevJ)

-- Monte-Carlo frontier sampling and portfolio evaluation
-- (source lines 322-399).

/-- Risk-free rate used by every Sharpe computation. -/
def riskFreeRate : ℝ := 0.02

/-- Trial count of the sampling loop. -/
def numPortfolios : ℕ := 15000

/-- One sampled or evaluated portfolio.  The source field named return
is called ret here. -/
structure PortfolioStats where
  ret : JSR
  risk : JSR
  sharpe : JSR
  weights : List ℝ
  var95 : Option JSR

/-- Initial extremum holder of the sampling loop, the literal with
return -Infinity, risk Infinity, sharpe -Infinity and no var95. -/
def sentinelStats : PortfolioStats :=
  ⟨.negInf, .posInf, .negInf, [], none⟩

/-- Weighted annualized return over the first n assets. -/
def portReturn (n : ℕ) (w μ : List ℝ) : ℝ :=
  ∑ i ∈ Finset.range n, w.getD i 0 * μ.getD i 0

/-- Portfolio variance, the double loop over the covariance matrix. -/
def portVariance (n : ℕ) (w : List ℝ) (C : ℕ → ℕ → ℝ) : ℝ :=
  ∑ i ∈ Finset.range n, ∑ j ∈ Finset.range n, w.getD i 0 * w.getD j 0 * C i j

/-- One trial of the sampling loop (source lines 330-358): normalize
the raw draws, evaluate return, risk, Sharpe and parametric VaR. -/
def mkTrialStats (n : ℕ) (μ : List ℝ) (C : ℕ → ℕ → ℝ) (draw : List ℝ) : PortfolioStats :=
  let totalWeight := draw.sum
  let weights := draw.map (fun w => w / totalWeight)
  let pReturn := portReturn n weights μ
  let pRisk := sqrtJS (portVariance n weights C)
  ⟨.num pReturn, pRisk, jsrDivReal (pReturn - riskFreeRate) pRisk, weights,
    some (jsrScale 1.645 pRisk)⟩

/-- Generic strict-improvement fold: keep the element whose key is
strictly smaller than that of the accumulator, first found wins ties. -/
def selFold {α : Type} {β : Type} [LinearOrder β] (key : α → β) : List α → α → α
  | [], a => a
  | s :: rest, a => selFold key rest (if key s < key a then s else a)

/-- The extremum tracking of the sampling loop (source lines 362-363):
replace the minimum-variance holder on strictly smaller risk and the
maximum-Sharpe holder on strictly greater Sharpe. -/
def mcFold : List PortfolioStats → PortfolioStats → PortfolioStats →
    PortfolioStats × PortfolioStats
  | [], minVarP, maxSharpeP => (minVarP, maxSharpeP)
  | s :: rest, minVarP, maxSharpeP =>
    mcFold rest (if jsrLt s.risk minVarP.risk then s else minVarP)
      (if jsrGt s.sharpe maxSharpeP.sharpe then s else maxSharpeP)

/-- The whole sampling loop: the cloud of all trials together with the
tracked minimum-variance and maximum-Sharpe holders. -/
def runMonteCarlo (trials n : ℕ) (μ : List ℝ) (C : ℕ → ℕ → ℝ) (draws : ℕ → List ℝ) :
    List PortfolioStats × PortfolioStats × PortfolioStats :=
  let frontier := (List.range trials).map (fun p => mkTrialStats n μ C (draws p))
  let ex := mcFold frontier sentinelStats sentinelStats
  (frontier, ex.1, ex.2)

/-- Evaluation of the current user portfolio (source lines 366-383),
with the unguarded Sharpe division. -/
def currentPortfolioStats (n : ℕ) (w μ : List ℝ) (C : ℕ → ℕ → ℝ) : PortfolioStats :=
  let curRet := portReturn n w μ
  let curRisk := sqrtJS (portVariance n w C)
  ⟨.num curRet, curRisk, jsrDivReal (curRet - riskFreeRate) curRisk, w,
    some (jsrScale 1.645 curRisk)⟩

/-- Per-asset risk-contribution fractions (source lines 385-399).  The
guard totalVol > 0 is false both for the NaN of a negative variance in
the source and for the 0 that Real.sqrt returns on it here, so plain
reals are faithful. -/
def riskContribution (n : ℕ) (w : List ℝ) (C : ℕ → ℕ → ℝ) : List ℝ :=
  (List.range n).map (fun i =>
    let mrc := ∑ j ∈ Finset.range n, w.getD j 0 * C i j
    let totalVol := Real.sqrt (portVariance n w C)
    let rc := if 0 < totalVol then w.getD i 0 * mrc / totalVol else 0
    if 0 < totalVol then rc / totalVol else 0)

/-- Benchmark portfolio from the independent index fetch (source lines
266-291): any thrown error or null result is swallowed, a series of at
most 10 prices is ignored, otherwise annualized mean and sample
variance of its simple returns are evaluated. -/
def benchmarkStats : FetchOutcome → Option PortfolioStats
  | .success _ prices _ =>
    if 10 < prices.length then
      let benchRets := (List.range (prices.length - 1)).map
        (fun i => (prices.getD (i + 1) 0 - prices.getD i 0) / prices.getD i 0)
      let benchMean := calculateMean benchRets * 252
      let benchVar :=
        (benchRets.map (fun r => (r - benchMean / 252) ^ 2)).sum /
          ((benchRets.length : ℝ) - 1) * 252
      let benchRisk := sqrtJS benchVar
      some ⟨.num benchMean, benchRisk, jsrDivReal (benchMean - riskFreeRate) benchRisk, [],
        some (jsrScale 1.645 benchRisk)⟩
    else none
  | _ => none

-- Top-level simulation (source runSimulation, lines 241-423).

/-- User input row. -/
structure AssetInput where
  ticker : String
  weight : ℝ

/-- Normalization of the raw user weights (source lines 244-246). -/
def normalizeUserWeights (userAssets : List AssetInput) : List ℝ :=
  let totalUserWeight := (userAssets.map (fun a => a.weight)).sum
  userAssets.map (fun a => if 0 < totalUserWeight then a.weight / totalUserWeight else 0)

/-- Aggregate result handed to the caller. -/
structure OptimizationResult where
  assets : List String
  correlationMatrix : ℕ → ℕ → ℝ
  efficientFrontier : List PortfolioStats
  currentPortfolio : PortfolioStats
  minVarPortfolio : PortfolioStats
  maxSharpePortfolio : PortfolioStats
  riskContribution : List ℝ
  isSimulation : Bool
  benchmarkPortfolio : Option PortfolioStats
  assetNames : List (String × String)

/-- Everything runSimulation computes after the history resolved; the
benchmark slot is passed in because its fetch is independent. -/
def buildResult (tickers : List String) (currentWeights : List ℝ) (h : HistoryData)
    (bench : Option PortfolioStats) (draws : ℕ → List ℝ) : OptimizationResult :=
  let nAssets := tickers.length
  let annualizedReturns := (h.history.map calculateMean).map (fun m => m * 252)
  let C := covMatrix h.history
  let mc := runMonteCarlo numPortfolios nAssets annualizedReturns C draws
  ⟨tickers, corMatrix h.history, mc.1,
    currentPortfolioStats nAssets currentWeights annualizedReturns C,
    mc.2.1, mc.2.2, riskContribution nAssets currentWeights C,
    h.isSimulation, bench, h.names⟩

/-- The top-level optimization (source runSimulation): invalid-ticker
errors from the history provider propagate, everything else yields a
full result; the benchmark fetch can never fail the computation. -/
def runSimulation (userAssets : List AssetInput) (range : TimeRange)
    (fetch : String → FetchOutcome) (u : ℕ → ℝ) (draws : ℕ → List ℝ) :
    Except (List String) OptimizationResult :=
  let tickers := userAssets.map (fun a => a.ticker)
  let currentWeights := normalizeUserWeights userAssets
  match getHistory tickers range fetch u with
  | .error e => .error e
  | .ok h => .ok (buildResult tickers currentWeights h (benchmarkStats (fetch ("^GSPC"))) draws)

-- Helper lemmas shared by several claims.

theorem sum_map_div (l : List ℝ) (c : ℝ) : (l.map (fun w => w / c)).sum = l.sum / c := by
  induction l with
  | nil => simp
  | cons x xs ih => simp [ih, add_div]

/-- C8: for A = [0.01, -0.02, 0.015, 0.005] and B = [0.02, -0.01, 0.01, 0.0]
the statistics layer yields daily means 0.0025 and 0.005, daily sample
covariance 0.0005/3, and annualized covariance 0.0005/3 * 252 = 0.042. -/
theorem claim_C8 :
    calculateMean [0.01, -0.02, 0.015, 0.005] = 0.0025 ∧
    calculateMean [0.02, -0.01, 0.01, 0.0] = 0.005 ∧
    calculateCovariance [0.01, -0.02, 0.015, 0.005] [0.02, -0.01, 0.01, 0.0]
      0.0025 0.005 = 0.0005 / 3 ∧
    covMatrix [[0.01, -0.02, 0.015, 0.005], [0.02, -0.01, 0.01, 0.0]] 0 1 = 0.042 := by
  refine ⟨?_, ?_, ?_, ?_⟩ <;>
    · simp only [calculateMean, calculateCovariance, covMatrix, List.getD, List.sum_cons,
        List.sum_nil, List.length_cons, List.length_nil, Finset.sum_range_succ,
        Finset.sum_range_zero, List.get?_cons_zero, List.get?_cons_succ, Option.getD_some]
      norm_num

/-- C7: each trial of the frontier sampler normalizes one nonnegative
uniform draw per asset by their sum, so that whenever the draws are
nonnegative with positive sum, every produced weight is nonnegative and
the weights sum to exactly 1. -/
theorem claim_C7 (n : ℕ) (μ : List ℝ) (C : ℕ → ℕ → ℝ) (draw : List ℝ)
    (h1 : ∀ x ∈ draw, 0 ≤ x) (h2 : 0 < draw.sum) :
    (∀ x ∈ (mkTrialStats n μ C draw).weights, 0 ≤ x) ∧
    (mkTrialStats n μ C draw).weights.sum = 1 := by
  have hw : (mkTrialStats n μ C draw).weights = draw.map (fun w => w / draw.sum) := rfl
  constructor
  · intro x hx
    rw [hw] at hx
    obtain ⟨y, hy, rfl⟩ := List.mem_map.mp hx
    exact div_nonneg (h1 y hy) h2.le
  · rw [hw, sum_map_div, div_self (ne_of_gt h2)]

/-- Witness for C7 at draws [1, 3]: weights [1/4, 3/4], nonnegative and
summing to 1. -/
theorem claim_C7_witness :
    (∀ x ∈ (mkTrialStats 2 [0.1, 0.2] (fun _ _ => 1) [1, 3]).weights, 0 ≤ x) ∧
    (mkTrialStats 2 [0.1, 0.2] (fun _ _ => 1) [1, 3]).weights.sum = 1 :=
  claim_C7 2 [0.1, 0.2] (fun _ _ => 1) [1, 3]
    (by intro x hx; simp at hx; rcases hx with h | h <;> norm_num [h])
    (by norm_num)

theorem runSimulation_eq (userAssets : List AssetInput) (range : TimeRange)
    (fetch : String → FetchOutcome) (u : ℕ → ℝ) (draws : ℕ → List ℝ) :
    runSimulation userAssets range fetch u draws =
      (getHistory (userAssets.map (fun a => a.ticker)) range fetch u).map
        (fun h => buildResult (userAssets.map (fun a => a.ticker))
          (normalizeUserWeights userAssets) h (benchmarkStats (fetch ("^GSPC"))) draws) := by
  cases hg : getHistory (userAssets.map (fun a => a.ticker)) range fetch u <;>
    simp [runSimulation, hg, Except.map]

/-- C10: when the raw user weights sum to 0, no division happens during
normalization: every current weight is defined as 0, so the current
portfolio carries the all-zero weight vector, summing to 0. -/
theorem claim_C10 (userAssets : List AssetInput) (range : TimeRange)
    (fetch : String → FetchOutcome) (u : ℕ → ℝ) (draws : ℕ → List ℝ)
    (h0 : (userAssets.map (fun a => a.weight)).sum = 0) :
    normalizeUserWeights userAssets = List.replicate userAssets.length 0 ∧
    (normalizeUserWeights userAssets).sum = 0 ∧
    (∀ r, runSimulation userAssets range fetch u draws = Except.ok r →
      r.currentPortfolio.weights = List.replicate userAssets.length 0) := by
  have hz : normalizeUserWeights userAssets = List.replicate userAssets.length 0 := by
    unfold normalizeUserWeights
    rw [h0]
    simp
  refine ⟨hz, by rw [hz]; simp, ?_⟩
  intro r hr
  rw [runSimulation_eq] at hr
  rcases hg : getHistory (userAssets.map (fun a => a.ticker)) range fetch u with e | h
  · rw [hg] at hr; exact absurd hr (by simp [Except.map])
  · rw [hg] at hr
    simp only [Except.map, Except.ok.injEq] at hr
    rw [← hr]
    exact hz

/-- Witness for C10 at raw weights 1 and -1 (summing to 0). -/
theorem claim_C10_witness :
    normalizeUserWeights [⟨"A", 1⟩, ⟨"B", -1⟩] = List.replicate 2 0 ∧
    (normalizeUserWeights [⟨"A", 1⟩, ⟨"B", -1⟩]).sum = 0 ∧
    (∀ r, runSimulation [⟨"A", 1⟩, ⟨"B", -1⟩] TimeRange.y1
        (fun _ => FetchOutcome.failure) (fun _ => 0.5) (fun _ => [1, 1]) = Except.ok r →
      r.currentPortfolio.weights = List.replicate 2 0) :=
  claim_C10 [⟨"A", 1⟩, ⟨"B", -1⟩] TimeRange.y1 (fun _ => FetchOutcome.failure)
    (fun _ => 0.5) (fun _ => [1, 1]) (by norm_num)

/-- C4: whenever at least one fetch outcome is classified
INVALID_TICKER, the history provider aborts with exactly the
de-duplicated list of offending tickers, never falling back, regardless
of the other outcomes. -/
theorem claim_C4 (tickers : List String) (range : TimeRange)
    (fetch : String → FetchOutcome) (u : ℕ → ℝ)
    (h : ∃ t ∈ tickers, ∃ s, fetch t = FetchOutcome.invalid s) :
    getHistory tickers range fetch u =
      Except.error (((tickers.map fetch).filterMap invalidName).eraseDups) := by
  obtain ⟨t, ht, s, hs⟩ := h
  have hmem : s ∈ (tickers.map fetch).filterMap invalidName :=
    List.mem_filterMap.mpr ⟨fetch t, List.mem_map_of_mem fetch ht, by rw [hs]; rfl⟩
  have hne : (tickers.map fetch).filterMap invalidName ≠ [] := List.ne_nil_of_mem hmem
  simp only [getHistory]
  rw [if_pos hne]

/-- Witness for C4: ZZZZINVALID is rejected while another ticker fails
transiently; the whole request aborts naming exactly ZZZZINVALID once. -/
theorem claim_C4_witness :
    getHistory ["AAPL", "ZZZZINVALID", "MSFT", "ZZZZINVALID"] TimeRange.y1
      (fun t => if t == "ZZZZINVALID" then FetchOutcome.invalid t else FetchOutcome.failure)
      (fun _ => 0.5) = Except.error ["ZZZZINVALID"] := by
  rw [claim_C4 _ _ _ _ ⟨"ZZZZINVALID", by simp, "ZZZZINVALID", by simp⟩]
  simp only [List.map_cons, List.map_nil]
  rfl

/-- C5: with no invalid ticker in the batch, any transient failure, or
an all-success batch whose aligned calendar has fewer than 50 dates,
makes the provider return the fully synthetic matrix for the whole
ticker set, flagged isSimulation = true, with no error and no real
series mixed in. -/
theorem claim_C5 (tickers : List String) (range : TimeRange)
    (fetch : String → FetchOutcome) (u : ℕ → ℝ)
    (hni : (tickers.map fetch).filterMap invalidName = [])
    (hf : (tickers.map fetch).any isFailure = true ∨
      ((tickers.map fetch).any isFailure = false ∧
        (commonDatesSorted ((tickers.map fetch).map outcomeDates)).length < 50)) :
    getHistory tickers range fetch u =
      Except.ok ⟨generateMockHistory tickers range u, true, []⟩ := by
  simp only [getHistory]
  rw [if_neg (by simp [hni])]
  rcases hf with hf | ⟨hf, hlen⟩
  · rw [if_pos hf]
  · rw [if_neg (by simp [hf]), if_pos hlen]

/-- Witness for C5: one success and one transient failure; the provider
answers with the synthetic matrix and the simulation flag. -/
theorem claim_C5_witness :
    getHistory ["A", "B"] TimeRange.y1
      (fun t => if t == "B" then FetchOutcome.failure else FetchOutcome.success [] [] none)
      (fun _ => 0.5) =
      Except.ok ⟨generateMockHistory ["A", "B"] TimeRange.y1 (fun _ => 0.5), true, []⟩ :=
  claim_C5 ["A", "B"] TimeRange.y1 _ (fun _ => 0.5) (by simp [invalidName])
    (Or.inl (by simp [isFailure]))

/-- C9: a failing benchmark fetch (transient, invalid, or a series of
at most 10 prices) is non-fatal: once the main history resolves, the
simulation returns the full result with the benchmark slot empty. -/
theorem claim_C9 (userAssets : List AssetInput) (range : TimeRange)
    (fetch : String → FetchOutcome) (u : ℕ → ℝ) (draws : ℕ → List ℝ)
    (h : HistoryData)
    (hh : getHistory (userAssets.map (fun a => a.ticker)) range fetch u = Except.ok h)
    (hb : fetch ("^GSPC") = FetchOutcome.failure ∨
      (∃ t, fetch ("^GSPC") = FetchOutcome.invalid t) ∨
      (∃ d p nm, fetch ("^GSPC") = FetchOutcome.success d p nm ∧ p.length ≤ 10)) :
    runSimulation userAssets range fetch u draws =
      Except.ok (buildResult (userAssets.map (fun a => a.ticker))
        (normalizeUserWeights userAssets) h none draws) := by
  have hbn : benchmarkStats (fetch ("^GSPC")) = none := by
    rcases hb with hb | ⟨t, hb⟩ | ⟨d, p, nm, hb, hp⟩
    · rw [hb]; rfl
    · rw [hb]; rfl
    · rw [hb]; simp [benchmarkStats, Nat.not_lt.mpr hp]
  rw [runSimulation_eq, hh, hbn]
  rfl

/-- Witness for C9: every fetch fails transiently, so the history falls
back to the synthetic matrix and the benchmark slot stays empty. -/
theorem claim_C9_witness :
    runSimulation [⟨"A", 1⟩] TimeRange.y1 (fun _ => FetchOutcome.failure)
      (fun _ => 0.5) (fun _ => [1]) =
      Except.ok (buildResult ["A"] (normalizeUserWeights [⟨"A", 1⟩])
        ⟨generateMockHistory ["A"] TimeRange.y1 (fun _ => 0.5), true, []⟩ none
        (fun _ => [1])) :=
  claim_C9 [⟨"A", 1⟩] TimeRange.y1 (fun _ => FetchOutcome.failure) (fun _ => 0.5)
    (fun _ => [1]) ⟨generateMockHistory ["A"] TimeRange.y1 (fun _ => 0.5), true, []⟩
    (by simp [getHistory, invalidName, isFailure]) (Or.inl rfl)

theorem sum_map_list_range (f : ℕ → ℝ) (n : ℕ) :
    ((List.range n).map f).sum = ∑ i ∈ Finset.range n, f i := by
  induction n with
  | zero => simp
  | succ n ih =>
    rw [List.range_succ, List.map_append, List.sum_append, Finset.sum_range_succ, ih]
    simp

theorem sum_weighted_mrc (n : ℕ) (w : List ℝ) (C : ℕ → ℕ → ℝ) :
    (∑ i ∈ Finset.range n, w.getD i 0 * ∑ j ∈ Finset.range n, w.getD j 0 * C i j) =
      portVariance n w C := by
  unfold portVariance
  refine Finset.sum_congr rfl (fun i _ => ?_)
  rw [Finset.mul_sum]
  exact Finset.sum_congr rfl (fun j _ => by ring)

/-- C2: for every weight vector and covariance matrix, the
risk-contribution fractions sum to exactly 1 whenever the portfolio
risk is strictly positive, and are all 0 when the risk is 0. -/
theorem claim_C2 (n : ℕ) (w : List ℝ) (C : ℕ → ℕ → ℝ) :
    (0 < Real.sqrt (portVariance n w C) → (riskContribution n w C).sum = 1) ∧
    (Real.sqrt (portVariance n w C) = 0 → ∀ x ∈ riskContribution n w C, x = 0) := by
  constructor
  · intro hpos
    have hvar : 0 < portVariance n w C := Real.sqrt_pos.mp hpos
    have hsq : Real.sqrt (portVariance n w C) * Real.sqrt (portVariance n w C) =
        portVariance n w C := Real.mul_self_sqrt hvar.le
    simp only [riskContribution, if_pos hpos]
    rw [sum_map_list_range]
    simp only [div_div, ← Finset.sum_div]
    rw [sum_weighted_mrc, hsq, div_self hvar.ne']
  · intro h0 x hx
    simp only [riskContribution, h0, lt_self_iff_false, if_false, List.mem_map] at hx
    obtain ⟨i, _, hxeq⟩ := hx
    exact hxeq.symm

/-- Witness for C2 at one asset with unit weight and unit variance: the
single fraction sums to 1. -/
theorem claim_C2_witness :
    (riskContribution 1 [1] (fun _ _ => 1)).sum = 1 :=
  (claim_C2 1 [1] (fun _ _ => 1)).1 (by
    have hv : portVariance 1 [1] (fun _ _ => 1) = 1 := by
      simp [portVariance]
    rw [hv, Real.sqrt_one]
    norm_num)

/-- Return history of two perfectly anti-correlated equal-volatility
assets. -/
def antiHist : List (List ℝ) := [[0.01, -0.01], [-0.01, 0.01]]

/-- Annualized mean returns of that history, as the pipeline computes
them. -/
def antiMu : List ℝ := (antiHist.map calculateMean).map (fun m => m * 252)

/-- Annualized covariance matrix of that history. -/
def antiCov : ℕ → ℕ → ℝ := covMatrix antiHist

/-- C3 (amended): when the evaluated portfolio variance is exactly 0,
the evaluation returns risk 0 and var95 0, but the Sharpe ratio is not
guarded: the division by zero yields Infinity when the return exceeds
the risk-free rate, -Infinity when it is below it, and NaN when they
are equal. -/
theorem claim_C3 (n : ℕ) (w μ : List ℝ) (C : ℕ → ℕ → ℝ)
    (hv : portVariance n w C = 0) :
    (currentPortfolioStats n w μ C).risk = JSR.num 0 ∧
    (currentPortfolioStats n w μ C).var95 = some (JSR.num 0) ∧
    (currentPortfolioStats n w μ C).sharpe =
      (if 0 < portReturn n w μ - riskFreeRate then JSR.posInf
       else if portReturn n w μ - riskFreeRate < 0 then JSR.negInf
       else JSR.nan) := by
  have hrisk : sqrtJS (portVariance n w C) = JSR.num 0 := by
    rw [hv]
    simp [sqrtJS]
  have h1 : (currentPortfolioStats n w μ C).risk = sqrtJS (portVariance n w C) := rfl
  have h2 : (currentPortfolioStats n w μ C).var95 =
      some (jsrScale 1.645 (sqrtJS (portVariance n w C))) := rfl
  have h3 : (currentPortfolioStats n w μ C).sharpe =
      jsrDivReal (portReturn n w μ - riskFreeRate) (sqrtJS (portVariance n w C)) := rfl
  rw [h1, h2, h3, hrisk]
  refine ⟨rfl, by simp [jsrScale], ?_⟩
  simp [jsrDivReal, divJS]

/-- Counterexample for C3 as frozen: for weights [1/2, 1/2] over the two
perfectly anti-correlated equal-volatility assets, the evaluation does
return risk 0, but its Sharpe is -Infinity, not 0: the source divides
(return - riskFreeRate) by the zero risk without any guard. -/
theorem claim_C3_counterexample :
    (currentPortfolioStats 2 [1/2, 1/2] antiMu antiCov).risk = JSR.num 0 ∧
    (currentPortfolioStats 2 [1/2, 1/2] antiMu antiCov).sharpe = JSR.negInf ∧
    (currentPortfolioStats 2 [1/2, 1/2] antiMu antiCov).sharpe ≠ JSR.num 0 := by
  have hv : portVariance 2 [1/2, 1/2] antiCov = 0 := by
    simp only [portVariance, antiCov, covMatrix, antiHist, calculateCovariance,
      calculateMean, Finset.sum_range_succ, Finset.sum_range_zero, List.getD,
      List.get?_cons_zero, List.get?_cons_succ, Option.getD_some, List.sum_cons,
      List.sum_nil, List.length_cons, List.length_nil]
    norm_num
  have hret : portReturn 2 [1/2, 1/2] antiMu = 0 := by
    simp only [portReturn, antiMu, antiHist, calculateMean, List.map_cons, List.map_nil,
      Finset.sum_range_succ, Finset.sum_range_zero, List.getD, List.get?_cons_zero,
      List.get?_cons_succ, Option.getD_some, List.sum_cons, List.sum_nil,
      List.length_cons, List.length_nil]
    norm_num
  have h1 : (currentPortfolioStats 2 [1/2, 1/2] antiMu antiCov).risk =
      sqrtJS (portVariance 2 [1/2, 1/2] antiCov) := rfl
  have h3 : (currentPortfolioStats 2 [1/2, 1/2] antiMu antiCov).sharpe =
      jsrDivReal (portReturn 2 [1/2, 1/2] antiMu - riskFreeRate)
        (sqrtJS (portVariance 2 [1/2, 1/2] antiCov)) := rfl
  have hsh : jsrDivReal (0 - riskFreeRate) (sqrtJS 0) = JSR.negInf := by
    norm_num [sqrtJS, jsrDivReal, divJS, riskFreeRate]
  rw [h1, h3, hv, hret]
  exact ⟨by simp [sqrtJS], hsh, by rw [hsh]; intro h; exact JSR.noConfusion h⟩

/-- Witness for C3 at a one-asset portfolio of weight 0: zero variance,
risk and var95 are 0 and the Sharpe is the unguarded division result. -/
theorem claim_C3_witness :
    (currentPortfolioStats 1 [0] [1] (fun _ _ => 1)).risk = JSR.num 0 ∧
    (currentPortfolioStats 1 [0] [1] (fun _ _ => 1)).var95 = some (JSR.num 0) ∧
    (currentPortfolioStats 1 [0] [1] (fun _ _ => 1)).sharpe =
      (if 0 < portReturn 1 [0] [1] - riskFreeRate then JSR.posInf
       else if portReturn 1 [0] [1] - riskFreeRate < 0 then JSR.negInf
       else JSR.nan) :=
  claim_C3 1 [0] [1] (fun _ _ => 1) (by simp [portVariance])

theorem calcCov_comm (a b : List ℝ) (ma mb : ℝ) (h : a.length = b.length) :
    calculateCovariance a b ma mb = calculateCovariance b a mb ma := by
  unfold calculateCovariance
  rw [h]
  congr 1
  exact Finset.sum_congr rfl (fun k _ => mul_comm _ _)

theorem calcCov_self_nonneg (a : List ℝ) (ma : ℝ) :
    0 ≤ calculateCovariance a a ma ma := by
  unfold calculateCovariance
  rcases Nat.eq_zero_or_pos a.length with h | h
  · simp [h]
  · apply div_nonneg
    · exact Finset.sum_nonneg (fun k _ => mul_self_nonneg _)
    · have h1 : (1 : ℝ) ≤ (a.length : ℝ) := by exact_mod_cast h
      linarith

theorem abs_div_le_sqrt_mul_sqrt (S Sxx Syy d : ℝ) (hxx : 0 ≤ Sxx) (hyy : 0 ≤ Syy)
    (hcs : S ^ 2 ≤ Sxx * Syy) (hd : 0 < d) :
    |S / d| ≤ Real.sqrt (Sxx / d) * Real.sqrt (Syy / d) := by
  have hS : |S| ≤ Real.sqrt (Sxx * Syy) := by
    rw [← Real.sqrt_sq_eq_abs]
    exact Real.sqrt_le_sqrt hcs
  have hrhs : Real.sqrt (Sxx / d) * Real.sqrt (Syy / d) = Real.sqrt (Sxx * Syy) / d := by
    rw [← Real.sqrt_mul (div_nonneg hxx hd.le)]
    have harg : Sxx / d * (Syy / d) = Sxx * Syy / d ^ 2 := by ring
    rw [harg, Real.sqrt_div' (Sxx * Syy) (sq_nonneg d), Real.sqrt_sq hd.le]
  rw [hrhs, abs_div, abs_of_pos hd]
  exact (div_le_div_iff_of_pos_right hd).mpr hS

theorem calcCov_abs_le (a b : List ℝ) (ma mb : ℝ) (hab : a.length = b.length)
    (h2 : 2 ≤ a.length) :
    |calculateCovariance a b ma mb| ≤
      Real.sqrt (calculateCovariance a a ma ma) *
        Real.sqrt (calculateCovariance b b mb mb) := by
  unfold calculateCovariance
  rw [← hab]
  have hd : (0 : ℝ) < (a.length : ℝ) - 1 := by
    have h2r : (2 : ℝ) ≤ (a.length : ℝ) := by exact_mod_cast h2
    linarith
  apply abs_div_le_sqrt_mul_sqrt
  · exact Finset.sum_nonneg (fun k _ => mul_self_nonneg _)
  · exact Finset.sum_nonneg (fun k _ => mul_self_nonneg _)
  · have hcs := Finset.sum_mul_sq_le_sq_mul_sq (Finset.range a.length)
      (fun k => a.getD k 0 - ma) (fun k => b.getD k 0 - mb)
    simpa only [pow_two] using hcs
  · exact hd

theorem abs_le_sqrt_scale (x ca cb : ℝ) (hca : 0 ≤ ca) (hcb : 0 ≤ cb)
    (h : |x| ≤ Real.sqrt ca * Real.sqrt cb) :
    |x * 252| ≤ Real.sqrt (ca * 252) * Real.sqrt (cb * 252) := by
  rw [abs_mul, abs_of_nonneg (by norm_num : (0 : ℝ) ≤ 252),
    Real.sqrt_mul hca 252, Real.sqrt_mul hcb 252]
  have h252 : Real.sqrt 252 * Real.sqrt 252 = 252 := Real.mul_self_sqrt (by norm_num)
  have key : Real.sqrt ca * Real.sqrt 252 * (Real.sqrt cb * Real.sqrt 252) =
      Real.sqrt ca * Real.sqrt cb * (Real.sqrt 252 * Real.sqrt 252) := by ring
  rw [key, h252]
  exact mul_le_mul_of_nonneg_right h (by norm_num)

/-- C6: for the correlation matrix computed from a returns matrix whose
rows all have length m ≥ 2, the diagonal is 1 wherever the estimated
volatility is nonzero, the matrix is symmetric, every entry lies in
[-1, 1], and any entry whose row or column volatility is zero is 0. -/
theorem claim_C6 (hist : List (List ℝ)) (m : ℕ) (hm : 2 ≤ m)
    (hlen : ∀ r ∈ hist, r.length = m) (i j : ℕ)
    (hi : i < hist.length) (hj : j < hist.length) :
    (Real.sqrt (covMatrix hist i i) ≠ 0 → corMatrix hist i i = 1) ∧
    corMatrix hist i j = corMatrix hist j i ∧
    (-1 ≤ corMatrix hist i j ∧ corMatrix hist i j ≤ 1) ∧
    ((Real.sqrt (covMatrix hist i i) = 0 ∨ Real.sqrt (covMatrix hist j j) = 0) →
      corMatrix hist i j = 0) := by
  have hgd : ∀ k, k < hist.length → (hist.getD k []).length = m := by
    intro k hk
    have hmem : hist.getD k [] ∈ hist := by
      rw [List.getD_eq_getElem hist [] hk]
      exact List.getElem_mem hk
    exact hlen _ hmem
  have ha : (hist.getD i []).length = m := hgd i hi
  have hb : (hist.getD j []).length = m := hgd j hj
  have hab : (hist.getD i []).length = (hist.getD j []).length := ha.trans hb.symm
  have h2a : 2 ≤ (hist.getD i []).length := ha ▸ hm
  have hPii : 0 ≤ covMatrix hist i i := by
    unfold covMatrix
    exact mul_nonneg (calcCov_self_nonneg _ _) (by norm_num)
  have hPjj : 0 ≤ covMatrix hist j j := by
    unfold covMatrix
    exact mul_nonneg (calcCov_self_nonneg _ _) (by norm_num)
  have hsymm : covMatrix hist i j = covMatrix hist j i := by
    unfold covMatrix
    rw [calcCov_comm _ _ _ _ hab]
  have hkey : |covMatrix hist i j| ≤
      Real.sqrt (covMatrix hist i i) * Real.sqrt (covMatrix hist j j) := by
    unfold covMatrix
    exact abs_le_sqrt_scale _ _ _ (calcCov_self_nonneg _ _) (calcCov_self_nonneg _ _)
      (calcCov_abs_le _ _ _ _ hab h2a)
  refine ⟨?_, ?_, ?_, ?_⟩
  · intro hσ
    have hpos : 0 < covMatrix hist i i := Real.sqrt_ne_zero'.mp hσ
    simp only [corMatrix]
    rw [if_neg (by push_neg; exact ⟨hσ, hσ⟩)]
    rw [Real.mul_self_sqrt hPii, div_self hpos.ne']
  · simp only [corMatrix]
    by_cases hc : Real.sqrt (covMatrix hist i i) = 0 ∨ Real.sqrt (covMatrix hist j j) = 0
    · rw [if_pos hc, if_pos hc.symm]
    · rw [if_neg hc, if_neg (fun h => hc h.symm)]
      rw [hsymm, mul_comm]
  · by_cases hc : Real.sqrt (covMatrix hist i i) = 0 ∨ Real.sqrt (covMatrix hist j j) = 0
    · simp only [corMatrix]
      rw [if_pos hc]
      norm_num
    · push_neg at hc
      have hσi : 0 < Real.sqrt (covMatrix hist i i) :=
        lt_of_le_of_ne (Real.sqrt_nonneg _) (Ne.symm hc.1)
      have hσj : 0 < Real.sqrt (covMatrix hist j j) :=
        lt_of_le_of_ne (Real.sqrt_nonneg _) (Ne.symm hc.2)
      have hprod : 0 < Real.sqrt (covMatrix hist i i) * Real.sqrt (covMatrix hist j j) :=
        mul_pos hσi hσj
      have habs : |covMatrix hist i j /
          (Real.sqrt (covMatrix hist i i) * Real.sqrt (covMatrix hist j j))| ≤ 1 := by
        rw [abs_div, abs_of_pos hprod]
        exact (div_le_one hprod).mpr hkey
      simp only [corMatrix]
      rw [if_neg (by push_neg; exact hc)]
      exact abs_le.mp habs
  · intro h
    simp only [corMatrix]
    rw [if_pos h]

/-- Witness for C6: a single asset with returns [0, 2]; its correlation
with itself is 1, symmetric, within bounds, and the zero-volatility
guard is vacuous. -/
theorem claim_C6_witness :
    (Real.sqrt (covMatrix [[0, 2]] 0 0) ≠ 0 → corMatrix [[0, 2]] 0 0 = 1) ∧
    corMatrix [[0, 2]] 0 0 = corMatrix [[0, 2]] 0 0 ∧
    (-1 ≤ corMatrix [[0, 2]] 0 0 ∧ corMatrix [[0, 2]] 0 0 ≤ 1) ∧
    ((Real.sqrt (covMatrix [[0, 2]] 0 0) = 0 ∨ Real.sqrt (covMatrix [[0, 2]] 0 0) = 0) →
      corMatrix [[0, 2]] 0 0 = 0) :=
  claim_C6 [[0, 2]] 2 (by norm_num) (by simp) 0 0 (by norm_num) (by norm_num)

/-- Key used by the minimum-risk tracking: risk inside the extended
reals. -/
def riskKey (s : PortfolioStats) : EReal := toER s.risk

/-- Key used by the maximum-Sharpe tracking: Sharpe inside the dual of
the extended reals, so that strictly greater Sharpe means strictly
smaller key. -/
def sharpeKey (s : PortfolioStats) : ERealᵒᵈ := OrderDual.toDual (toER s.sharpe)

theorem selFold_min {α β : Type} [LinearOrder β] (key : α → β) (l : List α) (a : α) :
    key (selFold key l a) ≤ key a ∧ ∀ s ∈ l, key (selFold key l a) ≤ key s := by
  induction l generalizing a with
  | nil => exact ⟨le_refl _, by simp⟩
  | cons s rest ih =>
    simp only [selFold]
    by_cases h : key s < key a
    · rw [if_pos h]
      obtain ⟨h1, h2⟩ := ih s
      refine ⟨h1.trans h.le, ?_⟩
      intro t ht
      rcases List.mem_cons.mp ht with h3 | h3
      · subst h3; exact h1
      · exact h2 t h3
    · rw [if_neg h]
      obtain ⟨h1, h2⟩ := ih a
      refine ⟨h1, ?_⟩
      intro t ht
      rcases List.mem_cons.mp ht with h3 | h3
      · subst h3; exact h1.trans (le_of_not_lt h)
      · exact h2 t h3

theorem selFold_first {α β : Type} [LinearOrder β] (key : α → β) (l : List α) (a : α) :
    (selFold key l a = a ∧ ∀ s ∈ l, ¬ key s < key a) ∨
    (∃ k, l.get? k = some (selFold key l a) ∧ key (selFold key l a) < key a ∧
      ∀ t1, t1 < k → ∀ t, l.get? t1 = some t → key (selFold key l a) < key t) := by
  induction l generalizing a with
  | nil => exact Or.inl ⟨rfl, by simp⟩
  | cons s rest ih =>
    simp only [selFold]
    by_cases h : key s < key a
    · rw [if_pos h]
      rcases ih s with ⟨heq, hall⟩ | ⟨k, hk, hlt, hbef⟩
      · refine Or.inr ⟨0, ?_, ?_, ?_⟩
        · rw [heq, List.get?_cons_zero]
        · rw [heq]; exact h
        · intro t1 ht1 t htt
          exact absurd ht1 (Nat.not_lt_zero t1)
      · refine Or.inr ⟨k + 1, ?_, hlt.trans h, ?_⟩
        · rw [List.get?_cons_succ]; exact hk
        · intro t1 ht1 t htt
          cases t1 with
          | zero =>
            rw [List.get?_cons_zero] at htt
            have hts := Option.some.inj htt
            exact hts ▸ hlt
          | succ t2 =>
            rw [List.get?_cons_succ] at htt
            exact hbef t2 (Nat.succ_lt_succ_iff.mp ht1) t htt
    · rw [if_neg h]
      rcases ih a with ⟨heq, hall⟩ | ⟨k, hk, hlt, hbef⟩
      · refine Or.inl ⟨heq, ?_⟩
        intro t ht
        rcases List.mem_cons.mp ht with h3 | h3
        · subst h3; exact h
        · exact hall t h3
      · refine Or.inr ⟨k + 1, ?_, hlt, ?_⟩
        · rw [List.get?_cons_succ]; exact hk
        · intro t1 ht1 t htt
          cases t1 with
          | zero =>
            rw [List.get?_cons_zero] at htt
            have hts := Option.some.inj htt
            exact hts ▸ (hlt.trans_le (le_of_not_lt h))
          | succ t2 =>
            rw [List.get?_cons_succ] at htt
            exact hbef t2 (Nat.succ_lt_succ_iff.mp ht1) t htt

theorem mcFold_eq (l : List PortfolioStats) (mv ms : PortfolioStats)
    (hl1 : ∀ s ∈ l, s.risk ≠ JSR.nan) (hmv : mv.risk ≠ JSR.nan)
    (hl2 : ∀ s ∈ l, s.sharpe ≠ JSR.nan) (hms : ms.sharpe ≠ JSR.nan) :
    mcFold l mv ms = (selFold riskKey l mv, selFold sharpeKey l ms) := by
  induction l generalizing mv ms with
  | nil => rfl
  | cons s rest ih =>
    have h1 : s.risk ≠ JSR.nan := hl1 s (List.mem_cons_self _ _)
    have h2 : s.sharpe ≠ JSR.nan := hl2 s (List.mem_cons_self _ _)
    have hiff1 : jsrLt s.risk mv.risk ↔ riskKey s < riskKey mv := jsrLt_iff h1 hmv
    have hiff2 : jsrGt s.sharpe ms.sharpe ↔ sharpeKey s < sharpeKey ms := by
      unfold jsrGt sharpeKey
      rw [jsrLt_iff hms h2]
      exact Iff.symm OrderDual.toDual_lt_toDual
    simp only [mcFold, selFold]
    rw [if_congr hiff1 rfl rfl, if_congr hiff2 rfl rfl]
    refine ih _ _ (fun t htm => hl1 t (List.mem_cons_of_mem _ htm)) ?_
      (fun t htm => hl2 t (List.mem_cons_of_mem _ htm)) ?_
    · split_ifs with hc
      · exact h1
      · exact hmv
    · split_ifs with hc
      · exact h2
      · exact hms

/-- C1 (amended): in every run of the sampling loop in which each
sampled portfolio has a finite (non-NaN) risk and a finite Sharpe,
the returned minVariance holder sits in the cloud at an index before
which every sample has strictly greater risk and its risk is less than
or equal to the risk of every cloud member, and symmetrically the
returned maxSharpe holder has Sharpe greater than or equal to every
cloud member and is the first-found such sample.  Zero-risk samples
(whose Sharpe is not a number) void the maxSharpe guarantee, see the
counterexample. -/
theorem claim_C1 (trials n : ℕ) (μ : List ℝ) (C : ℕ → ℕ → ℝ) (draws : ℕ → List ℝ)
    (ht : 0 < trials)
    (hr : ∀ s ∈ (runMonteCarlo trials n μ C draws).1, ∃ x : ℝ, s.risk = JSR.num x)
    (hs : ∀ s ∈ (runMonteCarlo trials n μ C draws).1, ∃ x : ℝ, s.sharpe = JSR.num x) :
    (∀ s ∈ (runMonteCarlo trials n μ C draws).1,
      jsrLe (runMonteCarlo trials n μ C draws).2.1.risk s.risk) ∧
    (∀ s ∈ (runMonteCarlo trials n μ C draws).1,
      jsrLe s.sharpe (runMonteCarlo trials n μ C draws).2.2.sharpe) ∧
    (∃ k, (runMonteCarlo trials n μ C draws).1.get? k =
        some (runMonteCarlo trials n μ C draws).2.1 ∧
      ∀ t1, t1 < k → ∀ t, (runMonteCarlo trials n μ C draws).1.get? t1 = some t →
        jsrLt (runMonteCarlo trials n μ C draws).2.1.risk t.risk) ∧
    (∃ k, (runMonteCarlo trials n μ C draws).1.get? k =
        some (runMonteCarlo trials n μ C draws).2.2 ∧
      ∀ t1, t1 < k → ∀ t, (runMonteCarlo trials n μ C draws).1.get? t1 = some t →
        jsrLt t.sharpe (runMonteCarlo trials n μ C draws).2.2.sharpe) := by
  have hcl : (runMonteCarlo trials n μ C draws).1 =
      (List.range trials).map (fun p => mkTrialStats n μ C (draws p)) := rfl
  rw [hcl] at hr hs
  set L := (List.range trials).map (fun p => mkTrialStats n μ C (draws p)) with hLdef
  have nn1 : ∀ s ∈ L, s.risk ≠ JSR.nan := by
    intro s hsm hcon
    obtain ⟨x, hx⟩ := hr s hsm
    rw [hx] at hcon
    exact JSR.noConfusion hcon
  have nn2 : ∀ s ∈ L, s.sharpe ≠ JSR.nan := by
    intro s hsm hcon
    obtain ⟨x, hx⟩ := hs s hsm
    rw [hx] at hcon
    exact JSR.noConfusion hcon
  have hfold := mcFold_eq L sentinelStats sentinelStats nn1
    (fun hcon => JSR.noConfusion hcon) nn2 (fun hcon => JSR.noConfusion hcon)
  have hMV : (runMonteCarlo trials n μ C draws).2.1 = selFold riskKey L sentinelStats := by
    have : (runMonteCarlo trials n μ C draws).2.1 = (mcFold L sentinelStats sentinelStats).1 := rfl
    rw [this, hfold]
  have hMS : (runMonteCarlo trials n μ C draws).2.2 = selFold sharpeKey L sentinelStats := by
    have : (runMonteCarlo trials n μ C draws).2.2 = (mcFold L sentinelStats sentinelStats).2 := rfl
    rw [this, hfold]
  have hLlen : L.length = trials := by
    rw [hLdef, List.length_map, List.length_range]
  have hLne : L ≠ [] := by
    intro hnil
    rw [hnil] at hLlen
    exact absurd hLlen.symm (Nat.pos_iff_ne_zero.mp ht)
  obtain ⟨s0, hs0⟩ := List.exists_mem_of_ne_nil L hLne
  -- minimum-risk holder
  have hminspec := selFold_first riskKey L sentinelStats
  rcases hminspec with ⟨heq, hall⟩ | ⟨k1, hk1, hlt1, hbef1⟩
  · exfalso
    obtain ⟨x, hx⟩ := hr s0 hs0
    have hlt0 : riskKey s0 < riskKey sentinelStats := by
      unfold riskKey
      rw [hx]
      exact EReal.coe_lt_top x
    exact hall s0 hs0 hlt0
  · have hmvmem : selFold riskKey L sentinelStats ∈ L := List.get?_mem hk1
    -- maximum-Sharpe holder
    have hmaxspec := selFold_first sharpeKey L sentinelStats
    rcases hmaxspec with ⟨heq, hall⟩ | ⟨k2, hk2, hlt2, hbef2⟩
    · exfalso
      obtain ⟨x, hx⟩ := hs s0 hs0
      have hlt0 : sharpeKey s0 < sharpeKey sentinelStats := by
        unfold sharpeKey
        rw [hx]
        exact OrderDual.toDual_lt_toDual.mpr (EReal.bot_lt_coe x)
      exact hall s0 hs0 hlt0
    · have hmsmem : selFold sharpeKey L sentinelStats ∈ L := List.get?_mem hk2
      refine ⟨?_, ?_, ?_, ?_⟩
      · intro s hsm
        rw [hcl] at hsm
        rw [hMV]
        exact (jsrLe_iff (nn1 _ hmvmem) (nn1 s hsm)).mpr ((selFold_min riskKey L sentinelStats).2 s hsm)
      · intro s hsm
        rw [hcl] at hsm
        rw [hMS]
        refine (jsrLe_iff (nn2 s hsm) (nn2 _ hmsmem)).mpr ?_
        exact OrderDual.toDual_le_toDual.mp ((selFold_min sharpeKey L sentinelStats).2 s hsm)
      · refine ⟨k1, ?_, ?_⟩
        · rw [hcl, hMV]; exact hk1
        · intro t1 ht1 t htt
          rw [hcl] at htt
          rw [hMV]
          have htm : t ∈ L := List.get?_mem htt
          exact (jsrLt_iff (nn1 _ hmvmem) (nn1 t htm)).mpr (hbef1 t1 ht1 t htt)
      · refine ⟨k2, ?_, ?_⟩
        · rw [hcl, hMS]; exact hk2
        · intro t1 ht1 t htt
          rw [hcl] at htt
          rw [hMS]
          have htm : t ∈ L := List.get?_mem htt
          refine (jsrLt_iff (nn2 t htm) (nn2 _ hmsmem)).mpr ?_
          exact OrderDual.toDual_lt_toDual.mp (hbef2 t1 ht1 t htt)

/-- Counterexample for C1 as frozen: one trial over a single asset with
annualized return 0.02 (the risk-free rate) and zero covariance.  The
sampled portfolio has risk 0 and Sharpe NaN, the NaN comparison never
replaces the sentinel, so the returned maxSharpe holder is the sentinel
and its Sharpe is not greater than or equal to the Sharpe of the cloud
member. -/
theorem claim_C1_counterexample :
    ∃ s ∈ (runMonteCarlo 1 1 [0.02] (fun _ _ => 0) (fun _ => [1])).1,
      ¬ jsrGe (runMonteCarlo 1 1 [0.02] (fun _ _ => 0) (fun _ => [1])).2.2.sharpe s.sharpe := by
  have hpv : portVariance 1 (([1] : List ℝ).map (fun w => w / List.sum [1]))
      (fun _ _ => 0) = 0 := by
    simp [portVariance]
  have hpr : portReturn 1 (([1] : List ℝ).map (fun w => w / List.sum [1])) [0.02] = 0.02 := by
    norm_num [portReturn, Finset.sum_range_one]
  have hsh : (mkTrialStats 1 [0.02] (fun _ _ => 0) [1]).sharpe = JSR.nan := by
    have he : (mkTrialStats 1 [0.02] (fun _ _ => 0) [1]).sharpe =
        jsrDivReal
          (portReturn 1 (([1] : List ℝ).map (fun w => w / List.sum [1])) [0.02] - riskFreeRate)
          (sqrtJS (portVariance 1 (([1] : List ℝ).map (fun w => w / List.sum [1]))
            (fun _ _ => 0))) := rfl
    rw [he, hpv, hpr]
    norm_num [sqrtJS, Real.sqrt_zero, jsrDivReal, divJS, riskFreeRate]
  have hrun1 : (runMonteCarlo 1 1 [0.02] (fun _ _ => 0) (fun _ => [1])).1 =
      [mkTrialStats 1 [0.02] (fun _ _ => 0) [1]] := rfl
  have hrun2 : (runMonteCarlo 1 1 [0.02] (fun _ _ => 0) (fun _ => [1])).2.2 =
      sentinelStats := by
    have he : (runMonteCarlo 1 1 [0.02] (fun _ _ => 0) (fun _ => [1])).2.2 =
        (mcFold [mkTrialStats 1 [0.02] (fun _ _ => 0) [1]] sentinelStats sentinelStats).2 := rfl
    have hng : ¬ jsrGt (mkTrialStats 1 [0.02] (fun _ _ => 0) [1]).sharpe
        sentinelStats.sharpe := by
      show ¬ jsrLt sentinelStats.sharpe (mkTrialStats 1 [0.02] (fun _ _ => 0) [1]).sharpe
      rw [hsh]
      show ¬ jsrLt JSR.negInf JSR.nan
      simp [jsrLt]
    rw [he]
    simp only [mcFold, if_neg hng]
  refine ⟨mkTrialStats 1 [0.02] (fun _ _ => 0) [1], ?_, ?_⟩
  · rw [hrun1]
    exact List.mem_singleton.mpr rfl
  · rw [hrun2, hsh]
    simp [jsrGe, jsrLe, sentinelStats]

/-- The concrete one-trial run used as witness input for C1. -/
def c1Run : List PortfolioStats × PortfolioStats × PortfolioStats :=
  runMonteCarlo 1 1 [1] (fun _ _ => 1) (fun _ => [1])

/-- Witness for C1 on a run whose only sample has risk 1 and finite
Sharpe: the tracked extremes satisfy all four properties. -/
theorem claim_C1_witness :
    (∀ s ∈ c1Run.1, jsrLe c1Run.2.1.risk s.risk) ∧
    (∀ s ∈ c1Run.1, jsrLe s.sharpe c1Run.2.2.sharpe) ∧
    (∃ k, c1Run.1.get? k = some c1Run.2.1 ∧
      ∀ t1, t1 < k → ∀ t, c1Run.1.get? t1 = some t → jsrLt c1Run.2.1.risk t.risk) ∧
    (∃ k, c1Run.1.get? k = some c1Run.2.2 ∧
      ∀ t1, t1 < k → ∀ t, c1Run.1.get? t1 = some t → jsrLt t.sharpe c1Run.2.2.sharpe) := by
  have hpv : portVariance 1 (([1] : List ℝ).map (fun w => w / List.sum [1]))
      (fun _ _ => 1) = 1 := by
    norm_num [portVariance, Finset.sum_range_one]
  have hret : portReturn 1 (([1] : List ℝ).map (fun w => w / List.sum [1])) [1] = 1 := by
    norm_num [portReturn, Finset.sum_range_one]
  have hone : ∀ s ∈ (runMonteCarlo 1 1 [1] (fun _ _ => 1) (fun _ => [1])).1,
      s = mkTrialStats 1 [1] (fun _ _ => 1) [1] := by
    intro s hsm
    have h1 : (runMonteCarlo 1 1 [1] (fun _ _ => 1) (fun _ => [1])).1 =
        [mkTrialStats 1 [1] (fun _ _ => 1) [1]] := rfl
    rw [h1, List.mem_singleton] at hsm
    exact hsm
  have hrisk : (mkTrialStats 1 [1] (fun _ _ => 1) [1]).risk = JSR.num 1 := by
    have he : (mkTrialStats 1 [1] (fun _ _ => 1) [1]).risk =
        sqrtJS (portVariance 1 (([1] : List ℝ).map (fun w => w / List.sum [1]))
          (fun _ _ => 1)) := rfl
    rw [he, hpv]
    norm_num [sqrtJS, Real.sqrt_one]
  have hsh : (mkTrialStats 1 [1] (fun _ _ => 1) [1]).sharpe = JSR.num 0.98 := by
    have he : (mkTrialStats 1 [1] (fun _ _ => 1) [1]).sharpe =
        jsrDivReal
          (portReturn 1 (([1] : List ℝ).map (fun w => w / List.sum [1])) [1] - riskFreeRate)
          (sqrtJS (portVariance 1 (([1] : List ℝ).map (fun w => w / List.sum [1]))
            (fun _ _ => 1))) := rfl
    rw [he, hpv, hret]
    norm_num [sqrtJS, Real.sqrt_one, jsrDivReal, divJS, riskFreeRate]
  exact claim_C1 1 1 [1] (fun _ _ => 1) (fun _ => [1]) (by norm_num)
    (fun s hsm => ⟨1, by rw [hone s hsm]; exact hrisk⟩)
    (fun s hsm => ⟨0.98, by rw [hone s hsm]; exact hsh⟩)

end

end FinanceEngine
